import Mathlib

/-!
Shallow embedding of the ZapCall signaling worker (src/worker.js and
src/unnamed/part_000).  Both files implement the same registry and relay
logic character for character; part_000 additionally handles the
`heartbeat` message type and keeps an idle-shutdown counter (process
lifecycle, outside the registry logic).  We embed the shared registry core
once, plus both dispatch switches.

Modelling decisions, each tied to the source:
* JavaScript `Map`s (`rooms`, and each room's user map) are modelled as
  insertion-ordered association lists with `mapGet` / `mapSet` /
  `mapDelete` / `mapHas` mirroring `Map.get/set/delete/has`: `set` on an
  existing key overwrites in place keeping the original position, `get`
  returns the entry for the key, iteration (`forEach`) is list order.
* A dynamic JS string field is `Option String`; `none` is `undefined`
  (destructuring a missing field yields `undefined`, which is a legal map
  key and message field in the source — nothing validates fields).
* Message payloads (`offer` / `answer` / `candidate`) are relayed without
  inspection; we model them as `Option String` as well.
* Each handler returns the new registry together with the list of transport
  actions it performed, in order: `Ev.direct s m` records a direct
  `sendToClient` call from the dispatcher, `Ev.bcast roomId m excl sent`
  records one `broadcastToRoom(roomId, m, excl)` invocation together with
  the `sendToClient` calls it made (`sent`).  `sendToClient`'s
  `readyState` guard is a transport-layer delivery swallow (spec §4.1/§7d);
  the event lists record the router's send attempts.
* Neither file contains any call that closes a connection from the message
  path; the router's action vocabulary therefore has no close action.
-/

namespace ZapCall

/-- A dynamic JS string field: `some s` is the string `s`, `none` is `undefined`. -/
abbrev JStr := Option String

/-- The per-user record stored in a room: `{ socket: socket, socketId: socketId }`.
The socket is an opaque transport handle, modelled as a `Nat`. -/
structure Client where
  socket : Nat
  socketId : String
  deriving DecidableEq, Repr

abbrev Room := List (JStr × Client)

/-- The process-wide `rooms` map: roomId → (userId → Client). -/
abbrev Registry := List (JStr × Room)

/-- JS `Map.get`: value of the first (unique) entry with the given key. -/
def mapGet {K V : Type} [DecidableEq K] : List (K × V) → K → Option V
  | [], _ => none
  | p :: t, k => if p.1 = k then some p.2 else mapGet t k

/-- JS `Map.set`: overwrite in place if the key is present (keeping its
insertion position), otherwise append at the end. -/
def mapSet {K V : Type} [DecidableEq K] : List (K × V) → K → V → List (K × V)
  | [], k, v => [(k, v)]
  | p :: t, k, v => if p.1 = k then (k, v) :: t else p :: mapSet t k v

/-- JS `Map.delete`: remove the entry with the given key, if any. -/
def mapDelete {K V : Type} [DecidableEq K] : List (K × V) → K → List (K × V)
  | [], _ => []
  | p :: t, k => if p.1 = k then t else p :: mapDelete t k

/-- JS `Map.has`. -/
def mapHas {K V : Type} [DecidableEq K] (m : List (K × V)) (k : K) : Bool :=
  (mapGet m k).isSome

/-- Outbound messages the worker builds (JSON objects with a `type` field). -/
inductive Msg where
  | connected
  | peerJoined (roomId userId : JStr)
  | peerLeft (roomId userId : JStr)
  | offer (sender payload : JStr)
  | answer (sender payload : JStr)
  | iceCandidate (sender payload : JStr)
  | heartbeatAck
  deriving DecidableEq, Repr

/-- One `sendToClient(socket, message)` call: target socket and message. -/
abbrev Send := Nat × Msg

/-- One transport action of a handler: a direct send from the dispatcher, or
one `broadcastToRoom` invocation together with the sends it performed. -/
inductive Ev where
  | direct (socket : Nat) (m : Msg)
  | bcast (roomId : JStr) (m : Msg) (excludeSocketId : String) (sent : List Send)
  deriving DecidableEq, Repr

/-- All `sendToClient` calls of an event trace, in order. -/
def sendsOf : List Ev → List Send
  | [] => []
  | Ev.direct s m :: t => (s, m) :: sendsOf t
  | Ev.bcast _ _ _ sent :: t => sent ++ sendsOf t

/-- Descriptor of a broadcast invocation: (roomId, message, excluded socketId). -/
def evDesc : Ev → Option (JStr × Msg × String)
  | Ev.direct _ _ => none
  | Ev.bcast r m x _ => some (r, m, x)

/-- `broadcastToRoom(roomId, message, excludeSocketId)` (worker.js:16-25):
if the room exists, call `sendToClient` for every client in it whose
`socketId` differs from `excludeSocketId`, in room iteration order. -/
def broadcastToRoom (rooms : Registry) (roomId : JStr) (m : Msg)
    (excludeSocketId : String) : List Send :=
  match mapGet rooms roomId with
  | none => []
  | some room =>
      (room.filter (fun e => e.2.socketId != excludeSocketId)).map
        (fun e => (e.2.socket, m))

/-- A parsed inbound message envelope.  Every field is dynamic: `none`
models a field absent from the JSON object (`undefined` after
destructuring).  Nothing in the source validates the shape. -/
structure JMsg where
  type : JStr := none
  roomId : JStr := none
  userId : JStr := none
  sender : JStr := none
  offer : JStr := none
  answer : JStr := none
  candidate : JStr := none
  deriving DecidableEq, Repr

/-- `handleJoinRoom` (worker.js:106-131): create the room if absent, insert
or overwrite the `(userId → client)` entry, then broadcast `peer-joined`
to the room (which now contains the joiner) excluding the joiner's socketId. -/
def handleJoinRoom (socket : Nat) (socketId : String) (data : JMsg)
    (rooms : Registry) : Registry × List Ev :=
  let rooms1 := if mapHas rooms data.roomId then rooms else mapSet rooms data.roomId []
  -- `rooms.get(roomId)` is guaranteed present here; `getD []` never takes its default
  let room := (mapGet rooms1 data.roomId).getD []
  let room1 := mapSet room data.userId { socket := socket, socketId := socketId }
  let rooms2 := mapSet rooms1 data.roomId room1
  let m := Msg.peerJoined data.roomId data.userId
  (rooms2, [Ev.bcast data.roomId m socketId (broadcastToRoom rooms2 data.roomId m socketId)])

/-- `handleLeaveRoom` (worker.js:133-158): if the room exists, delete the
`userId` entry (whether or not it was present), broadcast `peer-left` to
the remaining members excluding the requester's socketId, then delete the
room if it is now empty.  There is no check that a removal occurred. -/
def handleLeaveRoom (socket : Nat) (socketId : String) (data : JMsg)
    (rooms : Registry) : Registry × List Ev :=
  if mapHas rooms data.roomId then
    let room := (mapGet rooms data.roomId).getD []
    let room1 := mapDelete room data.userId
    let rooms1 := mapSet rooms data.roomId room1
    let m := Msg.peerLeft data.roomId data.userId
    let evs := [Ev.bcast data.roomId m socketId (broadcastToRoom rooms1 data.roomId m socketId)]
    let rooms2 := if room1.isEmpty then mapDelete rooms1 data.roomId else rooms1
    (rooms2, evs)
  else (rooms, [])

/-- `handleOffer` (worker.js:160-166): relay `{type:"offer", sender, offer}`
verbatim to the room excluding the sender's socketId. -/
def handleOffer (socket : Nat) (socketId : String) (data : JMsg)
    (rooms : Registry) : Registry × List Ev :=
  let m := Msg.offer data.sender data.offer
  (rooms, [Ev.bcast data.roomId m socketId (broadcastToRoom rooms data.roomId m socketId)])

/-- `handleAnswer` (worker.js:168-174). -/
def handleAnswer (socket : Nat) (socketId : String) (data : JMsg)
    (rooms : Registry) : Registry × List Ev :=
  let m := Msg.answer data.sender data.answer
  (rooms, [Ev.bcast data.roomId m socketId (broadcastToRoom rooms data.roomId m socketId)])

/-- `handleIceCandidate` (worker.js:176-182). -/
def handleIceCandidate (socket : Nat) (socketId : String) (data : JMsg)
    (rooms : Registry) : Registry × List Ev :=
  let m := Msg.iceCandidate data.sender data.candidate
  (rooms, [Ev.bcast data.roomId m socketId (broadcastToRoom rooms data.roomId m socketId)])

/-- The `switch (message.type)` dispatch of src/unnamed/part_000 (lines
107-129), which includes the `heartbeat` case.  Unknown types are logged
and dropped. -/
def dispatch (socket : Nat) (socketId : String) (m : JMsg)
    (rooms : Registry) : Registry × List Ev :=
  if m.type = some "join-room" then handleJoinRoom socket socketId m rooms
  else if m.type = some "leave-room" then handleLeaveRoom socket socketId m rooms
  else if m.type = some "offer" then handleOffer socket socketId m rooms
  else if m.type = some "answer" then handleAnswer socket socketId m rooms
  else if m.type = some "ice-candidate" then handleIceCandidate socket socketId m rooms
  else if m.type = some "heartbeat" then (rooms, [Ev.direct socket Msg.heartbeatAck])
  else (rooms, [])

/-- The `switch (message.type)` dispatch of src/worker.js (lines 61-79):
identical except that there is no `heartbeat` case, so a heartbeat falls
through to the default (logged, dropped). -/
def dispatchWorker (socket : Nat) (socketId : String) (m : JMsg)
    (rooms : Registry) : Registry × List Ev :=
  if m.type = some "join-room" then handleJoinRoom socket socketId m rooms
  else if m.type = some "leave-room" then handleLeaveRoom socket socketId m rooms
  else if m.type = some "offer" then handleOffer socket socketId m rooms
  else if m.type = some "answer" then handleAnswer socket socketId m rooms
  else if m.type = some "ice-candidate" then handleIceCandidate socket socketId m rooms
  else (rooms, [])

/-- The message listener (part_000 lines 102-133): `JSON.parse` inside
`try`/`catch`.  `none` models raw text that fails to parse: the exception
is caught and logged, nothing else happens and the connection stays open. -/
def handleMessage (socket : Nat) (socketId : String) (raw : Option JMsg)
    (rooms : Registry) : Registry × List Ev :=
  match raw with
  | none => (rooms, [])
  | some m => dispatch socket socketId m rooms

/-- The message listener of src/worker.js (lines 56-83), same `try`/`catch`
but dispatching without a heartbeat case. -/
def handleMessageWorker (socket : Nat) (socketId : String) (raw : Option JMsg)
    (rooms : Registry) : Registry × List Ev :=
  match raw with
  | none => (rooms, [])
  | some m => dispatchWorker socket socketId m rooms

/-- The membership scan of the close listener (worker.js:88-96): every
`(roomId, userId)` whose client has the given socketId, in iteration order. -/
def findMemberships (rooms : Registry) (socketId : String) : List (JStr × JStr) :=
  rooms.flatMap (fun p =>
    (p.2.filter (fun e => e.2.socketId == socketId)).map (fun e => (p.1, e.1)))

/-- The body of the close listener's double `forEach`: run `handleLeaveRoom`
for each membership in turn, on the evolving registry.  The JS iterates the
live maps, but each `handleLeaveRoom` call removes exactly the entry being
visited (and possibly its room once emptied, i.e. once it holds no other
entry still to be visited), never an entry not yet visited, so iterating
over the up-front snapshot `findMemberships` is the same computation. -/
def closeLoop (socket : Nat) (socketId : String) :
    List (JStr × JStr) → Registry → Registry × List Ev
  | [], rooms => (rooms, [])
  | mem :: t, rooms =>
      let r1 := handleLeaveRoom socket socketId
        { roomId := mem.1, userId := mem.2 } rooms
      let r2 := closeLoop socket socketId t r1.1
      (r2.1, r1.2 ++ r2.2)

/-- The `close` event listener (worker.js:86-98): find every membership of
the closing connection and run the explicit leave-room logic on each. -/
def handleClose (socket : Nat) (socketId : String) (rooms : Registry) :
    Registry × List Ev :=
  closeLoop socket socketId (findMemberships rooms socketId) rooms

/-- One inbound event reaching the registry core: a (possibly unparseable)
message from a connection, or a connection close. -/
inductive Op where
  | msg (socket : Nat) (socketId : String) (raw : Option JMsg)
  | close (socket : Nat) (socketId : String)
  deriving DecidableEq, Repr

def stepOp (rooms : Registry) : Op → Registry
  | Op.msg s sid raw => (handleMessage s sid raw rooms).1
  | Op.close s sid => (handleClose s sid rooms).1

/-- Registry state after a sequence of inbound events, from the empty
initial `rooms = new Map()`. -/
def runOps (ops : List Op) : Registry :=
  ops.foldl stepOp []

/-- The connection registered for a (roomId, userId) pair, if any. -/
def findClient (rooms : Registry) (r u : JStr) : Option Client :=
  (mapGet rooms r).bind (fun room => mapGet room u)

/-- One `join(roomId, userId, connection)` call, as in §8's first property. -/
structure JoinCall where
  roomId : JStr
  userId : JStr
  socket : Nat
  socketId : String
  deriving DecidableEq, Repr

/-- Registry effect of one join-room handling. -/
def joinStep (st : Registry) (j : JoinCall) : Registry :=
  (handleJoinRoom j.socket j.socketId
    { type := some "join-room", roomId := j.roomId, userId := j.userId } st).1

/-- Registry after a sequence of join-room handlings from the empty state. -/
def runJoins (l : List JoinCall) : Registry :=
  l.foldl joinStep []

/-- The connection of the most recent join call for a given (roomId, userId)
pair in a call sequence, if any. -/
def lastJoin (l : List JoinCall) (r u : JStr) : Option Client :=
  l.foldl (fun acc j =>
    if j.roomId = r ∧ j.userId = u then some ⟨j.socket, j.socketId⟩ else acc) none

/-- `'socket_' + Math.random().toString(36).substr(2, 9)` (worker.js:47):
the argument is the base-36 rendering of the random draw (e.g.
`"0.mf8z61q9wkh"`); `substr(2, 9)` keeps nine characters after the `0.`. -/
def genSocketId (randStr : String) : String :=
  "socket_" ++ ((randStr.drop 2).take 9)

/-- The socketId of the n-th accepted connection, given the stream of
base-36 renderings produced by `Math.random().toString(36)`.  Each
connection's id is computed once, at accept time, from its own draw. -/
def socketIdOf (rand : Nat → String) (n : Nat) : String :=
  genSocketId (rand n)

/-- Well-formed room: user keys are distinct (JS `Map` semantics) and the
room is non-empty (empty rooms are deleted on the spot). -/
def RoomWF (room : Room) : Prop :=
  (room.map Prod.fst).Nodup ∧ room ≠ []

/-- Well-formed registry: room keys are distinct and every present room is
well-formed. -/
def WF (rooms : Registry) : Prop :=
  (rooms.map Prod.fst).Nodup ∧ ∀ p ∈ rooms, RoomWF p.2

instance (room : Room) : Decidable (RoomWF room) := by
  unfold RoomWF; infer_instance

instance (rooms : Registry) : Decidable (WF rooms) := by
  unfold WF RoomWF; infer_instance

/-! ### Association-list map lemmas -/

section MapLemmas

variable {K V : Type} [DecidableEq K]

theorem mapGet_mapSet_self (m : List (K × V)) (k : K) (v : V) :
    mapGet (mapSet m k v) k = some v := by
  induction m with
  | nil => simp [mapSet, mapGet]
  | cons p t ih =>
      by_cases h : p.1 = k
      · simp [mapSet, h, mapGet]
      · simp [mapSet, h, mapGet, ih]

theorem mapGet_mapSet_ne (m : List (K × V)) {k k' : K} (v : V) (h : k' ≠ k) :
    mapGet (mapSet m k v) k' = mapGet m k' := by
  induction m with
  | nil => simp [mapSet, mapGet, Ne.symm h]
  | cons p t ih =>
      by_cases hp : p.1 = k
      · simp [mapSet, hp, mapGet, Ne.symm h]
      · simp [mapSet, hp, mapGet, ih]

theorem mapGet_mapDelete_ne (m : List (K × V)) {k k' : K} (h : k' ≠ k) :
    mapGet (mapDelete m k) k' = mapGet m k' := by
  induction m with
  | nil => simp [mapDelete]
  | cons p t ih =>
      by_cases hp : p.1 = k
      · simp [mapDelete, hp, mapGet, Ne.symm h]
      · simp [mapDelete, hp, mapGet, ih]

theorem mapDelete_sublist (m : List (K × V)) (k : K) :
    (mapDelete m k).Sublist m := by
  induction m with
  | nil => simp [mapDelete]
  | cons p t ih =>
      by_cases hp : p.1 = k
      · simp [mapDelete, hp]
      · simpa [mapDelete, hp] using ih.cons₂ p

theorem mapGet_eq_none_iff (m : List (K × V)) (k : K) :
    mapGet m k = none ↔ k ∉ m.map Prod.fst := by
  induction m with
  | nil => simp [mapGet]
  | cons p t ih =>
      by_cases hp : p.1 = k
      · simp [mapGet, hp]
      · simp [mapGet, hp, ih, Ne.symm hp]

theorem mapGet_mapDelete_self (m : List (K × V)) (k : K)
    (h : (m.map Prod.fst).Nodup) : mapGet (mapDelete m k) k = none := by
  induction m with
  | nil => simp [mapDelete, mapGet]
  | cons p t ih =>
      simp only [List.map_cons, List.nodup_cons] at h
      by_cases hp : p.1 = k
      · subst hp
        simpa [mapDelete, mapGet_eq_none_iff] using h.1
      · simp [mapDelete, hp, mapGet, ih h.2]

theorem mem_keys_mapSet (m : List (K × V)) (k a : K) (v : V) :
    a ∈ (mapSet m k v).map Prod.fst ↔ a ∈ m.map Prod.fst ∨ a = k := by
  induction m with
  | nil => simp [mapSet]
  | cons p t ih =>
      by_cases hp : p.1 = k
      · subst hp
        simp only [mapSet, if_pos rfl, eq_self_iff_true, if_true, List.map_cons,
          List.mem_cons]
        tauto
      · simp only [mapSet, if_neg hp, List.map_cons, List.mem_cons, ih]
        tauto

theorem nodup_keys_mapSet (m : List (K × V)) (k : K) (v : V)
    (h : (m.map Prod.fst).Nodup) : ((mapSet m k v).map Prod.fst).Nodup := by
  induction m with
  | nil => simp [mapSet]
  | cons p t ih =>
      simp only [List.map_cons, List.nodup_cons] at h
      by_cases hp : p.1 = k
      · subst hp
        simpa [mapSet, List.nodup_cons] using h
      · have hnot : p.1 ∉ (mapSet t k v).map Prod.fst := by
          rw [mem_keys_mapSet]
          rintro (hmem | heq)
          · exact h.1 hmem
          · exact hp heq
        simp [mapSet, hp, List.nodup_cons, hnot, ih h.2]

theorem mem_mapSet (m : List (K × V)) (k : K) (v : V) {p : K × V}
    (h : p ∈ mapSet m k v) : p = (k, v) ∨ p ∈ m := by
  induction m with
  | nil => simpa [mapSet] using h
  | cons q t ih =>
      by_cases hq : q.1 = k
      · simp only [mapSet, if_pos hq] at h
        rcases List.mem_cons.mp h with h1 | h1
        · exact Or.inl h1
        · exact Or.inr (List.mem_cons_of_mem _ h1)
      · simp only [mapSet, if_neg hq] at h
        rcases List.mem_cons.mp h with h1 | h1
        · exact Or.inr (h1 ▸ List.mem_cons_self _ _)
        · rcases ih h1 with h2 | h2
          · exact Or.inl h2
          · exact Or.inr (List.mem_cons_of_mem _ h2)

theorem mapSet_ne_nil (m : List (K × V)) (k : K) (v : V) : mapSet m k v ≠ [] := by
  cases m with
  | nil => simp [mapSet]
  | cons q t =>
      by_cases hq : q.1 = k
      · simp [mapSet, hq]
      · simp [mapSet, hq]

theorem mem_of_mem_mapDelete (m : List (K × V)) (k : K) {p : K × V}
    (h : p ∈ mapDelete m k) : p ∈ m :=
  (mapDelete_sublist m k).mem h

theorem mapGet_eq_some_mem (m : List (K × V)) (k : K) {v : V}
    (h : mapGet m k = some v) : (k, v) ∈ m := by
  induction m with
  | nil => simp [mapGet] at h
  | cons q t ih =>
      by_cases hq : q.1 = k
      · simp only [mapGet, if_pos hq, Option.some.injEq] at h
        subst h
        subst hq
        exact List.mem_cons_self _ _
      · simp only [mapGet, if_neg hq] at h
        exact List.mem_cons_of_mem _ (ih h)

theorem mapGet_of_mem_nodup (m : List (K × V)) {k : K} {v : V}
    (hnd : (m.map Prod.fst).Nodup) (h : (k, v) ∈ m) : mapGet m k = some v := by
  induction m with
  | nil => simp at h
  | cons q t ih =>
      simp only [List.map_cons, List.nodup_cons] at hnd
      rcases List.mem_cons.mp h with h1 | h1
      · rw [← h1]
        simp [mapGet]
      · have hk : k ∈ t.map Prod.fst := List.mem_map.mpr ⟨(k, v), h1, rfl⟩
        have hq : q.1 ≠ k := fun e => hnd.1 (e ▸ hk)
        simp only [mapGet, if_neg hq]
        exact ih hnd.2 h1

theorem mapHas_iff (m : List (K × V)) (k : K) :
    mapHas m k = true ↔ ∃ v, mapGet m k = some v := by
  unfold mapHas
  cases mapGet m k <;> simp

theorem mapHas_eq_false_iff (m : List (K × V)) (k : K) :
    mapHas m k = false ↔ mapGet m k = none := by
  unfold mapHas
  cases mapGet m k <;> simp

theorem mem_mapSet_nodup (m : List (K × V)) (k : K) (v : V) {p : K × V}
    (hnd : (m.map Prod.fst).Nodup) (h : p ∈ mapSet m k v) :
    p = (k, v) ∨ (p ∈ m ∧ p.1 ≠ k) := by
  induction m with
  | nil => simpa [mapSet] using h
  | cons q t ih =>
      simp only [List.map_cons, List.nodup_cons] at hnd
      by_cases hq : q.1 = k
      · simp only [mapSet, if_pos hq] at h
        rcases List.mem_cons.mp h with h1 | h1
        · exact Or.inl h1
        · refine Or.inr ⟨List.mem_cons_of_mem _ h1, fun e => hnd.1 ?_⟩
          rw [hq, ← e]
          exact List.mem_map.mpr ⟨p, h1, rfl⟩
      · simp only [mapSet, if_neg hq] at h
        rcases List.mem_cons.mp h with h1 | h1
        · exact Or.inr ⟨h1 ▸ List.mem_cons_self _ _, h1 ▸ hq⟩
        · rcases ih hnd.2 h1 with h2 | h2
          · exact Or.inl h2
          · exact Or.inr ⟨List.mem_cons_of_mem _ h2.1, h2.2⟩

theorem mem_mapDelete_nodup (m : List (K × V)) (k : K) {p : K × V}
    (hnd : (m.map Prod.fst).Nodup) (h : p ∈ mapDelete m k) :
    p ∈ m ∧ p.1 ≠ k := by
  induction m with
  | nil => simp [mapDelete] at h
  | cons q t ih =>
      simp only [List.map_cons, List.nodup_cons] at hnd
      by_cases hq : q.1 = k
      · simp only [mapDelete, if_pos hq] at h
        refine ⟨List.mem_cons_of_mem _ h, fun e => hnd.1 ?_⟩
        rw [hq, ← e]
        exact List.mem_map.mpr ⟨p, h, rfl⟩
      · simp only [mapDelete, if_neg hq] at h
        rcases List.mem_cons.mp h with h1 | h1
        · exact ⟨h1 ▸ List.mem_cons_self _ _, h1 ▸ hq⟩
        · exact ⟨List.mem_cons_of_mem _ (ih hnd.2 h1).1, (ih hnd.2 h1).2⟩

end MapLemmas

/-! ### Well-formedness is preserved by every handler -/

theorem WF_nil : WF ([] : Registry) := by
  constructor
  · simp
  · intro p hp
    simp at hp

theorem WF_handleJoinRoom (socket : Nat) (sid : String) (data : JMsg)
    (rooms : Registry) (h : WF rooms) :
    WF (handleJoinRoom socket sid data rooms).1 := by
  unfold handleJoinRoom
  set rooms1 := if mapHas rooms data.roomId then rooms
    else mapSet rooms data.roomId [] with hrooms1
  have hnd1 : (rooms1.map Prod.fst).Nodup := by
    rw [hrooms1]
    split
    · exact h.1
    · exact nodup_keys_mapSet _ _ _ h.1
  have hmem1 : ∀ p ∈ rooms1, (p.2.map Prod.fst).Nodup := by
    intro p hp
    rw [hrooms1] at hp
    split at hp
    · exact (h.2 p hp).1
    · rcases mem_mapSet rooms _ _ hp with h1 | h1
      · rw [h1]
        simp
      · exact (h.2 p h1).1
  have hroomnd : (((mapGet rooms1 data.roomId).getD []).map Prod.fst).Nodup := by
    rcases hg : mapGet rooms1 data.roomId with _ | room
    · simp
    · simpa using hmem1 _ (mapGet_eq_some_mem _ _ hg)
  constructor
  · exact nodup_keys_mapSet _ _ _ hnd1
  · intro p hp
    rcases mem_mapSet_nodup _ _ _ hnd1 hp with h1 | h1
    · rw [h1]
      exact ⟨nodup_keys_mapSet _ _ _ hroomnd, mapSet_ne_nil _ _ _⟩
    · have hp1 : p ∈ rooms1 := h1.1
      rw [hrooms1] at hp1
      split at hp1
      · exact h.2 p hp1
      · rcases mem_mapSet_nodup _ _ _ h.1 hp1 with h2 | h2
        · exact absurd (by rw [h2]) h1.2
        · exact h.2 p h2.1

theorem WF_handleLeaveRoom (socket : Nat) (sid : String) (data : JMsg)
    (rooms : Registry) (h : WF rooms) :
    WF (handleLeaveRoom socket sid data rooms).1 := by
  unfold handleLeaveRoom
  by_cases hhas : mapHas rooms data.roomId
  · simp only [hhas, if_true]
    set room := (mapGet rooms data.roomId).getD [] with hroom
    set room1 := mapDelete room data.userId with hroom1
    set rooms1 := mapSet rooms data.roomId room1 with hrooms1
    have hnd1 : (rooms1.map Prod.fst).Nodup := nodup_keys_mapSet _ _ _ h.1
    have hroomnd : (room.map Prod.fst).Nodup := by
      rw [hroom]
      rcases hg : mapGet rooms data.roomId with _ | rm
      · simp
      · simpa using (h.2 _ (mapGet_eq_some_mem _ _ hg)).1
    have hroom1nd : (room1.map Prod.fst).Nodup :=
      ((mapDelete_sublist room data.userId).map Prod.fst).nodup hroomnd
    by_cases hemp : room1.isEmpty
    · simp only [hemp, if_true]
      constructor
      · exact (((mapDelete_sublist rooms1 data.roomId).map Prod.fst).nodup hnd1)
      · intro p hp
        have hp1 := (mem_mapDelete_nodup _ _ hnd1 hp).1
        have hne := (mem_mapDelete_nodup _ _ hnd1 hp).2
        rcases mem_mapSet_nodup _ _ _ h.1 hp1 with h1 | h1
        · exact absurd (by rw [h1]) hne
        · exact h.2 p h1.1
    · simp only [hemp, if_false]
      constructor
      · exact hnd1
      · intro p hp
        rcases mem_mapSet_nodup _ _ _ h.1 hp with h1 | h1
        · rw [h1]
          exact ⟨hroom1nd, by simpa [List.isEmpty_iff] using hemp⟩
        · exact h.2 p h1.1
  · simp only [hhas, if_false]
    exact h

theorem WF_closeLoop (socket : Nat) (sid : String) (ms : List (JStr × JStr))
    (rooms : Registry) (h : WF rooms) :
    WF (closeLoop socket sid ms rooms).1 := by
  induction ms generalizing rooms with
  | nil => exact h
  | cons mem t ih =>
      exact ih _ (WF_handleLeaveRoom socket sid _ rooms h)

theorem WF_handleClose (socket : Nat) (sid : String) (rooms : Registry)
    (h : WF rooms) : WF (handleClose socket sid rooms).1 :=
  WF_closeLoop socket sid _ rooms h

theorem WF_dispatch (socket : Nat) (sid : String) (m : JMsg)
    (rooms : Registry) (h : WF rooms) :
    WF (dispatch socket sid m rooms).1 := by
  unfold dispatch
  split_ifs
  · exact WF_handleJoinRoom socket sid m rooms h
  · exact WF_handleLeaveRoom socket sid m rooms h
  · exact h
  · exact h
  · exact h
  · exact h
  · exact h

theorem WF_handleMessage (socket : Nat) (sid : String) (raw : Option JMsg)
    (rooms : Registry) (h : WF rooms) :
    WF (handleMessage socket sid raw rooms).1 := by
  cases raw with
  | none => exact h
  | some m => exact WF_dispatch socket sid m rooms h

theorem WF_stepOp (rooms : Registry) (op : Op) (h : WF rooms) :
    WF (stepOp rooms op) := by
  cases op with
  | msg s sid raw => exact WF_handleMessage s sid raw rooms h
  | close s sid => exact WF_handleClose s sid rooms h

theorem WF_runOps (ops : List Op) : WF (runOps ops) := by
  have : ∀ (l : List Op) (st : Registry), WF st → WF (l.foldl stepOp st) := by
    intro l
    induction l with
    | nil => exact fun st h => h
    | cons op t ih => exact fun st h => ih _ (WF_stepOp st op h)
  exact this ops [] WF_nil

/-! ### Broadcast characterization -/

/-- A send is performed by `broadcastToRoom rooms roomId m ex` exactly when
its message is `m` and its target is the socket of a client registered in
the room `roomId` whose socketId is not the excluded one. -/
theorem mem_broadcastToRoom (rooms : Registry) (roomId : JStr) (m : Msg)
    (ex : String) (s : Nat) (mm : Msg) :
    (s, mm) ∈ broadcastToRoom rooms roomId m ex ↔
      mm = m ∧ ∃ room u c, mapGet rooms roomId = some room ∧ (u, c) ∈ room ∧
        c.socketId ≠ ex ∧ c.socket = s := by
  rcases hg : mapGet rooms roomId with _ | room
  · simp [broadcastToRoom, hg]
  · simp only [broadcastToRoom, hg, List.mem_map, List.mem_filter, bne_iff_ne,
      Option.some.injEq]
    constructor
    · rintro ⟨⟨u, c⟩, ⟨hmem, hne⟩, heq⟩
      cases heq
      exact ⟨rfl, room, u, c, rfl, hmem, hne, rfl⟩
    · rintro ⟨rfl, room', u, c, hsome, hmem, hne, rfl⟩
      subst hsome
      exact ⟨(u, c), ⟨hmem, hne⟩, rfl⟩

/-! ### Step characterizations of join and leave -/

/-- After a join for `(data.roomId, data.userId)`, the registered client for
a pair is the new client at exactly that pair and is unchanged elsewhere. -/
theorem findClient_handleJoinRoom (socket : Nat) (sid : String) (data : JMsg)
    (rooms : Registry) (r u : JStr) :
    findClient (handleJoinRoom socket sid data rooms).1 r u =
      if data.roomId = r ∧ data.userId = u then some ⟨socket, sid⟩
      else findClient rooms r u := by
  unfold handleJoinRoom findClient
  set rooms1 := if mapHas rooms data.roomId then rooms
    else mapSet rooms data.roomId [] with hrooms1
  by_cases hr : data.roomId = r
  · subst hr
    rw [mapGet_mapSet_self]
    by_cases hu : data.userId = u
    · subst hu
      simp [mapGet_mapSet_self]
    · rw [if_neg (by simp [hu])]
      simp only [Option.some_bind]
      rw [mapGet_mapSet_ne _ _ (fun e => hu e.symm)]
      rw [hrooms1]
      rcases hg : mapGet rooms data.roomId with _ | room
      · simp [mapHas, hg, mapGet_mapSet_self, mapGet]
      · simp [mapHas, hg]
  · rw [if_neg (by simp [hr])]
    rw [mapGet_mapSet_ne _ _ (fun e => hr e.symm)]
    rw [hrooms1]
    rcases hg : mapGet rooms data.roomId with _ | room
    · simp [mapHas, hg, mapGet_mapSet_ne _ _ (fun e => hr e.symm)]
    · simp [mapHas, hg]

/-- A leave for a present room deletes the user entry in that room and keeps
every other pair's registration unchanged (the room itself disappearing
once emptied). -/
theorem findClient_handleLeaveRoom (socket : Nat) (sid : String) (data : JMsg)
    (rooms : Registry) (room : Room) (hwf : WF rooms)
    (hg : mapGet rooms data.roomId = some room) (r u : JStr) :
    findClient (handleLeaveRoom socket sid data rooms).1 r u =
      if data.roomId = r then mapGet (mapDelete room data.userId) u
      else findClient rooms r u := by
  have hhas : mapHas rooms data.roomId = true := (mapHas_iff _ _).mpr ⟨room, hg⟩
  unfold handleLeaveRoom findClient
  simp only [hhas, if_true, hg, Option.getD_some]
  set room1 := mapDelete room data.userId with hroom1
  set rooms1 := mapSet rooms data.roomId room1 with hrooms1
  have hnd1 : (rooms1.map Prod.fst).Nodup := nodup_keys_mapSet _ _ _ hwf.1
  by_cases hemp : room1.isEmpty
  · rw [if_pos hemp]
    by_cases hr : data.roomId = r
    · subst hr
      rw [if_pos rfl, mapGet_mapDelete_self _ _ hnd1]
      have : room1 = [] := by simpa [List.isEmpty_iff] using hemp
      simp [this, mapGet]
    · rw [if_neg hr, mapGet_mapDelete_ne _ (fun e => hr e.symm), hrooms1,
        mapGet_mapSet_ne _ _ (fun e => hr e.symm)]
  · rw [if_neg hemp]
    by_cases hr : data.roomId = r
    · subst hr
      rw [if_pos rfl, hrooms1, mapGet_mapSet_self]
      rfl
    · rw [if_neg hr, hrooms1, mapGet_mapSet_ne _ _ (fun e => hr e.symm)]

/-- A leave for an absent room is a silent no-op: state unchanged, no events. -/
theorem handleLeaveRoom_absent (socket : Nat) (sid : String) (data : JMsg)
    (rooms : Registry) (hg : mapGet rooms data.roomId = none) :
    handleLeaveRoom socket sid data rooms = (rooms, []) := by
  unfold handleLeaveRoom
  simp [mapHas, hg]

/-- A leave for a present room performs exactly one `peer-left` broadcast
invocation, excluding the requester's socketId. -/
theorem handleLeaveRoom_events (socket : Nat) (sid : String) (data : JMsg)
    (rooms : Registry) (hhas : mapHas rooms data.roomId = true) :
    ((handleLeaveRoom socket sid data rooms).2).map evDesc =
      [some (data.roomId, Msg.peerLeft data.roomId data.userId, sid)] := by
  unfold handleLeaveRoom
  simp only [hhas, if_true]
  by_cases hemp : (mapDelete ((mapGet rooms data.roomId).getD []) data.userId).isEmpty
  · simp [hemp, evDesc]
  · simp [hemp, evDesc]

/-- C3 helper: every room present in a reachable registry is non-empty. -/
theorem runOps_room_nonempty (ops : List Op) (r : JStr) (room : Room)
    (h : mapGet (runOps ops) r = some room) : room ≠ [] :=
  ((WF_runOps ops).2 _ (mapGet_eq_some_mem _ _ h)).2

/-! ### Last-writer-wins for join sequences -/

theorem foldl_lastJoin_acc (l : List JoinCall) (r u : JStr) (a : Option Client) :
    l.foldl (fun acc j =>
        if j.roomId = r ∧ j.userId = u then some ⟨j.socket, j.socketId⟩ else acc) a
      = (lastJoin l r u).elim a some := by
  induction l generalizing a with
  | nil => rfl
  | cons j t ih =>
      show t.foldl _ _ = (lastJoin (j :: t) r u).elim a some
      have hlj : lastJoin (j :: t) r u = (lastJoin t r u).elim
          (if j.roomId = r ∧ j.userId = u then some ⟨j.socket, j.socketId⟩ else none)
          some := by
        show t.foldl _ _ = _
        rw [ih]
      rw [ih, hlj]
      cases hlt : lastJoin t r u with
      | some c => rfl
      | none =>
          by_cases hc : j.roomId = r ∧ j.userId = u
          · simp [hc]
          · simp [hc]

theorem findClient_foldl_joinStep (l : List JoinCall) (st : Registry) (r u : JStr) :
    findClient (l.foldl joinStep st) r u
      = (lastJoin l r u).elim (findClient st r u) some := by
  induction l generalizing st with
  | nil => rfl
  | cons j t ih =>
      show findClient (t.foldl joinStep (joinStep st j)) r u = _
      rw [ih]
      have hstep : findClient (joinStep st j) r u
          = if j.roomId = r ∧ j.userId = u then some ⟨j.socket, j.socketId⟩
            else findClient st r u := by
        unfold joinStep
        exact findClient_handleJoinRoom j.socket j.socketId _ st r u
      have hlj : lastJoin (j :: t) r u = (lastJoin t r u).elim
          (if j.roomId = r ∧ j.userId = u then some ⟨j.socket, j.socketId⟩ else none)
          some := by
        show t.foldl _ _ = _
        rw [foldl_lastJoin_acc]
      rw [hstep, hlj]
      cases hlt : lastJoin t r u with
      | some c => rfl
      | none =>
          by_cases hc : j.roomId = r ∧ j.userId = u
          · simp [hc]
          · simp [hc]

theorem mapHas_handleJoinRoom (socket : Nat) (sid : String) (data : JMsg)
    (rooms : Registry) (r : JStr) :
    mapHas (handleJoinRoom socket sid data rooms).1 r
      = if data.roomId = r then true else mapHas rooms r := by
  unfold handleJoinRoom mapHas
  by_cases hr : data.roomId = r
  · subst hr
    rw [mapGet_mapSet_self]
    simp
  · rw [if_neg hr, mapGet_mapSet_ne _ _ (fun e => hr e.symm)]
    rcases hg : mapGet rooms data.roomId with _ | room
    · simp [mapHas, hg, mapGet_mapSet_ne _ _ (fun e => hr e.symm)]
    · simp [mapHas, hg]

theorem mapHas_foldl_joinStep (l : List JoinCall) (st : Registry) (r : JStr) :
    mapHas (l.foldl joinStep st) r
      = (l.any (fun j => j.roomId == r) || mapHas st r) := by
  induction l generalizing st with
  | nil => simp
  | cons j t ih =>
      show mapHas (t.foldl joinStep (joinStep st j)) r = _
      rw [ih]
      have hstep : mapHas (joinStep st j) r
          = if j.roomId = r then true else mapHas st r :=
        mapHas_handleJoinRoom j.socket j.socketId _ st r
      rw [hstep]
      by_cases hr : j.roomId = r
      · simp [hr]
      · have : (j.roomId == r) = false := by
          simpa [beq_iff_eq] using hr
        simp [hr, this]

theorem WF_runJoins (l : List JoinCall) : WF (runJoins l) := by
  have : ∀ (t : List JoinCall) (st : Registry), WF st → WF (t.foldl joinStep st) := by
    intro t
    induction t with
    | nil => exact fun st h => h
    | cons j tt ih =>
        exact fun st h => ih _ (WF_handleJoinRoom j.socket j.socketId _ st h)
  exact this l [] WF_nil

/-! ### Close-time cleanup -/

theorem eq_of_mem_keys_nodup {K V : Type} [DecidableEq K] {m : List (K × V)}
    {e f : K × V} (hnd : (m.map Prod.fst).Nodup) (he : e ∈ m) (hf : f ∈ m)
    (h1 : e.1 = f.1) : e = f := by
  have h2 := mapGet_of_mem_nodup m hnd (show (e.1, e.2) ∈ m by rwa [Prod.mk.eta])
  have h3 := mapGet_of_mem_nodup m hnd (show (f.1, f.2) ∈ m by rwa [Prod.mk.eta])
  rw [h1, h3] at h2
  exact Prod.ext h1 (Option.some.inj h2).symm

/-- A pair is found by the close-time membership scan exactly when it is a
registered membership of the given socketId. -/
theorem mem_findMemberships (rooms : Registry) (sid : String) (r u : JStr)
    (hwf : WF rooms) :
    (r, u) ∈ findMemberships rooms sid ↔
      ∃ c, findClient rooms r u = some c ∧ c.socketId = sid := by
  unfold findMemberships
  rw [List.mem_flatMap]
  constructor
  · rintro ⟨p, hp, hmem⟩
    rcases List.mem_map.mp hmem with ⟨e, hef, heq⟩
    rcases List.mem_filter.mp hef with ⟨he, hsid⟩
    have hsid' : e.2.socketId = sid := by simpa [beq_iff_eq] using hsid
    cases heq
    refine ⟨e.2, ?_, hsid'⟩
    unfold findClient
    have hg1 : mapGet rooms p.1 = some p.2 :=
      mapGet_of_mem_nodup rooms hwf.1 (show (p.1, p.2) ∈ rooms by rwa [Prod.mk.eta])
    have hg2 : mapGet p.2 e.1 = some e.2 :=
      mapGet_of_mem_nodup p.2 (hwf.2 p hp).1
        (show (e.1, e.2) ∈ p.2 by rwa [Prod.mk.eta])
    rw [hg1]
    simpa using hg2
  · rintro ⟨c, hc, hsid⟩
    unfold findClient at hc
    rcases hg : mapGet rooms r with _ | room
    · rw [hg] at hc
      simp at hc
    · rw [hg] at hc
      simp only [Option.some_bind] at hc
      refine ⟨(r, room), mapGet_eq_some_mem _ _ hg, List.mem_map.mpr
        ⟨(u, c), List.mem_filter.mpr ⟨mapGet_eq_some_mem _ _ hc, ?_⟩, rfl⟩⟩
      simp [beq_iff_eq, hsid]

/-- In a well-formed registry the membership scan yields no duplicate pair. -/
theorem nodup_findMemberships (rooms : Registry) (sid : String) (hwf : WF rooms) :
    (findMemberships rooms sid).Nodup := by
  unfold findMemberships
  apply List.nodup_flatMap.mpr
  constructor
  · intro p hp
    have hroomnd : (p.2.map Prod.fst).Nodup := (hwf.2 p hp).1
    refine List.Nodup.map_on ?_ ((hroomnd.of_map _).filter _)
    intro e he f hf heq
    have he' : e ∈ p.2 := (List.mem_filter.mp he).1
    have hf' : f ∈ p.2 := (List.mem_filter.mp hf).1
    have h1 : e.1 = f.1 := congrArg Prod.snd heq
    exact eq_of_mem_keys_nodup hroomnd he' hf' h1
  · have hpw : rooms.Pairwise (fun p q => p.1 ≠ q.1) :=
      List.pairwise_map.mp hwf.1
    refine hpw.imp ?_
    intro p q hne x hxp hxq
    rcases List.mem_map.mp hxp with ⟨e, _, he⟩
    rcases List.mem_map.mp hxq with ⟨f, _, hf⟩
    apply hne
    rw [← he] at hf
    exact (congrArg Prod.fst hf).symm

/-- Invariant induction along the close-time cleanup loop: assuming the
pending membership list is duplicate-free, each pending pair is still
registered to the closing socketId, and every remaining registration of
that socketId is pending, the loop emits exactly one `peer-left` broadcast
per pending membership (in order, each excluding the closing socketId) and
ends with no registration of that socketId left. -/
theorem closeLoop_spec (socket : Nat) (sid : String) :
    ∀ (ms : List (JStr × JStr)) (st : Registry), WF st → ms.Nodup →
    (∀ m ∈ ms, ∃ c, findClient st m.1 m.2 = some c ∧ c.socketId = sid) →
    (∀ r u c, findClient st r u = some c → c.socketId = sid → (r, u) ∈ ms) →
    ((closeLoop socket sid ms st).2.map evDesc
        = ms.map (fun m => some (m.1, Msg.peerLeft m.1 m.2, sid)))
    ∧ (∀ r u c, findClient (closeLoop socket sid ms st).1 r u = some c →
        c.socketId ≠ sid) := by
  intro ms
  induction ms with
  | nil =>
      intro st _ _ _ hq
      refine ⟨rfl, fun r u c hc hcs => ?_⟩
      simpa using hq r u c hc hcs
  | cons m t ih =>
      intro st hwf hnd hmem hq
      obtain ⟨c, hc, hcsid⟩ := hmem m (List.mem_cons_self _ _)
      obtain ⟨room, hgr, hgu⟩ : ∃ room, mapGet st m.1 = some room ∧
          mapGet room m.2 = some c := by
        unfold findClient at hc
        rcases hg : mapGet st m.1 with _ | room
        · rw [hg] at hc
          simp at hc
        · rw [hg] at hc
          simp only [Option.some_bind] at hc
          exact ⟨room, rfl, hc⟩
      have hroomnd : (room.map Prod.fst).Nodup :=
        (hwf.2 _ (mapGet_eq_some_mem _ _ hgr)).1
      set data : JMsg := { roomId := m.1, userId := m.2 } with hdata
      have hdr : data.roomId = m.1 := rfl
      have hdu : data.userId = m.2 := rfl
      have hstep := findClient_handleLeaveRoom socket sid data st room hwf
        (by rw [hdr]; exact hgr)
      set st1 := (handleLeaveRoom socket sid data st).1 with hst1
      have hwf1 : WF st1 := WF_handleLeaveRoom socket sid data st hwf
      have hpres : ∀ r u, (r, u) ≠ m →
          findClient st1 r u = findClient st r u := by
        intro r u hne
        rw [hstep r u, hdr, hdu]
        by_cases hr : m.1 = r
        · subst hr
          have hu : m.2 ≠ u := fun e => hne (by rw [← e])
          rw [if_pos rfl, mapGet_mapDelete_ne _ (fun e => hu e.symm)]
          unfold findClient
          rw [hgr]
          rfl
        · rw [if_neg hr]
      have hgone : findClient st1 m.1 m.2 = none := by
        rw [hstep m.1 m.2, hdr, hdu, if_pos rfl]
        exact mapGet_mapDelete_self _ _ hroomnd
      have hmem1 : ∀ m' ∈ t, ∃ c', findClient st1 m'.1 m'.2 = some c' ∧
          c'.socketId = sid := by
        intro m' hm'
        have hne : m' ≠ m := fun e => (List.nodup_cons.mp hnd).1 (e ▸ hm')
        have hne2 : (m'.1, m'.2) ≠ m := by rwa [Prod.mk.eta]
        rw [hpres m'.1 m'.2 hne2]
        exact hmem m' (List.mem_cons_of_mem _ hm')
      have hq1 : ∀ r u c', findClient st1 r u = some c' → c'.socketId = sid →
          (r, u) ∈ t := by
        intro r u c' hc' hcs'
        by_cases hru : (r, u) = m
        · have hr : r = m.1 := congrArg Prod.fst hru
          have hu : u = m.2 := congrArg Prod.snd hru
          rw [hr, hu, hgone] at hc'
          cases hc'
        · rw [hpres r u hru] at hc'
          have := hq r u c' hc' hcs'
          rcases List.mem_cons.mp this with h1 | h1
          · exact absurd h1 hru
          · exact h1
      have hrec := ih st1 hwf1 (List.nodup_cons.mp hnd).2 hmem1 hq1
      have hevs : (handleLeaveRoom socket sid data st).2.map evDesc
          = [some (m.1, Msg.peerLeft m.1 m.2, sid)] := by
        have := handleLeaveRoom_events socket sid data st
          (by rw [hdr]; exact (mapHas_iff _ _).mpr ⟨room, hgr⟩)
        rw [this, hdr, hdu]
      constructor
      · show ((handleLeaveRoom socket sid data st).2
            ++ (closeLoop socket sid t st1).2).map evDesc = _
        rw [List.map_append, hevs, hrec.1]
        rfl
      · show ∀ r u c', findClient (closeLoop socket sid t st1).1 r u = some c' →
          c'.socketId ≠ sid
        exact hrec.2

/-- `sendsOf` of a single broadcast event is the broadcast's send list. -/
theorem sendsOf_bcast (r : JStr) (m : Msg) (x : String) (sent : List Send) :
    sendsOf [Ev.bcast r m x sent] = sent := by
  simp [sendsOf]

/-! ### Claim theorems -/

/-- C1: `broadcastToRoom(r, m, excludeSocketId = c)` sends `m` exactly to
the sockets of the clients currently registered in room `r` whose socketId
differs from `c` — every non-excluded member of `r` receives it, no
connection registered only in other rooms receives anything — and when the
room is absent from the registry (for instance after its last participant
left and the room was deleted) the broadcast is a silent no-op, so a
subsequent `offer` naming that roomId produces a broadcast invocation with
no recipients and no error. -/
theorem broadcast_room_delivery (rooms : Registry) (roomId : JStr) (m : Msg)
    (ex : String) :
    (∀ s mm, (s, mm) ∈ broadcastToRoom rooms roomId m ex ↔
      (mm = m ∧ ∃ room u c, mapGet rooms roomId = some room ∧ (u, c) ∈ room ∧
        c.socketId ≠ ex ∧ c.socket = s))
    ∧ (mapGet rooms roomId = none →
        broadcastToRoom rooms roomId m ex = []
        ∧ ∀ socket sid data, JMsg.roomId data = roomId →
            handleOffer socket sid data rooms
              = (rooms, [Ev.bcast roomId (Msg.offer data.sender data.offer) sid []])) := by
  refine ⟨fun s mm => mem_broadcastToRoom rooms roomId m ex s mm,
    fun hnone => ⟨?_, ?_⟩⟩
  · simp [broadcastToRoom, hnone]
  · intro socket sid data hdr
    subst hdr
    simp [handleOffer, broadcastToRoom, hnone]

/-- C3: in every registry reachable from the empty initial state by any
sequence of inbound messages (join, leave, relay/broadcast, heartbeat,
unknown or unparseable) and connection closes, a room entry is present
exactly when its participant mapping is non-empty; no empty-but-present
room ever exists. -/
theorem room_present_iff_nonempty (ops : List Op) (r : JStr) :
    mapHas (runOps ops) r = true ↔
      ∃ room, mapGet (runOps ops) r = some room ∧ room ≠ [] := by
  rw [mapHas_iff]
  constructor
  · rintro ⟨room, hg⟩
    exact ⟨room, hg, runOps_room_nonempty ops r room hg⟩
  · rintro ⟨room, hg, _⟩
    exact ⟨room, hg⟩

/-- C4: after any sequence of join-room handlings from the empty state, the
registry holds at most one connection per (roomId, userId) pair — room keys
and the user keys of each room are duplicate-free — the registered client
for every pair is exactly the one of the most recent join call for that
pair (silent last-writer-wins overwrite, never an error), and a room is
present exactly when some join call named it (created on demand). -/
theorem join_last_writer_wins (l : List JoinCall) (r u : JStr) :
    ((runJoins l).map Prod.fst).Nodup
    ∧ (((mapGet (runJoins l) r).getD []).map Prod.fst).Nodup
    ∧ findClient (runJoins l) r u = lastJoin l r u
    ∧ mapHas (runJoins l) r = l.any (fun j => j.roomId == r) := by
  refine ⟨(WF_runJoins l).1, ?_, ?_, ?_⟩
  · rcases hg : mapGet (runJoins l) r with _ | room
    · simp
    · simpa using ((WF_runJoins l).2 _ (mapGet_eq_some_mem _ _ hg)).1
  · rw [runJoins, findClient_foldl_joinStep l [] r u]
    cases lastJoin l r u <;> simp [findClient, mapGet]
  · rw [runJoins, mapHas_foldl_joinStep l [] r]
    simp [mapHas, mapGet]

/-- C5: when a connection transitions to Closed, the router performs the
explicit leave-room logic once per (roomId, userId) membership its socketId
occupies at that moment: it emits exactly one `peer-left` broadcast
invocation per membership, for that membership's room and excluding the
closing socketId, in scan order; afterwards no registration of that
socketId survives, and well-formedness is preserved — every room emptied by
a removal has been deleted. -/
theorem close_cleanup_per_membership (socket : Nat) (sid : String)
    (rooms : Registry) (hwf : WF rooms) :
    ((handleClose socket sid rooms).2.map evDesc
        = (findMemberships rooms sid).map
            (fun m => some (m.1, Msg.peerLeft m.1 m.2, sid)))
    ∧ (∀ r u c, findClient (handleClose socket sid rooms).1 r u = some c →
        c.socketId ≠ sid)
    ∧ WF (handleClose socket sid rooms).1 := by
  have hmem : ∀ m ∈ findMemberships rooms sid, ∃ c,
      findClient rooms m.1 m.2 = some c ∧ c.socketId = sid := by
    intro m hm
    exact (mem_findMemberships rooms sid m.1 m.2 hwf).mp (by rwa [Prod.mk.eta])
  have hq : ∀ r u c, findClient rooms r u = some c → c.socketId = sid →
      (r, u) ∈ findMemberships rooms sid := by
    intro r u c hc hcs
    exact (mem_findMemberships rooms sid r u hwf).mpr ⟨c, hc, hcs⟩
  have h := closeLoop_spec socket sid (findMemberships rooms sid) rooms hwf
    (nodup_findMemberships rooms sid hwf) hmem hq
  exact ⟨h.1, h.2, WF_handleClose socket sid rooms hwf⟩

/-- Witness for C5: closing the connection with socketId "s1", which holds
(A, u1) and (B, u2), emits exactly one peer-left broadcast per room. -/
theorem close_cleanup_per_membership_witness :
    WF [(some "A", [(some "u1", ⟨1, "s1"⟩), (some "x", ⟨9, "s9"⟩)]),
        (some "B", [(some "u2", ⟨1, "s1"⟩)])]
    ∧ (handleClose 1 "s1"
        [(some "A", [(some "u1", ⟨1, "s1"⟩), (some "x", ⟨9, "s9"⟩)]),
         (some "B", [(some "u2", ⟨1, "s1"⟩)])]).2.map evDesc
      = [some (some "A", Msg.peerLeft (some "A") (some "u1"), "s1"),
         some (some "B", Msg.peerLeft (some "B") (some "u2"), "s1")] := by
  refine ⟨by decide, ?_⟩
  rw [(close_cleanup_per_membership 1 "s1" _ (by decide)).1]
  decide

/-- C7: a relayed `offer` leaves the registry unchanged and its payload is
forwarded verbatim as `{type:"offer", sender, offer}` exactly to the
sockets registered in the named room under a socketId different from the
sender's — every other member of the room, nobody outside it, and never the
sender's own connection; likewise for `answer` and `ice-candidate` with
their respective payload fields. -/
theorem relay_verbatim_excludes_sender (socket : Nat) (sid : String)
    (data : JMsg) (rooms : Registry) :
    ((handleOffer socket sid data rooms).1 = rooms
      ∧ ∀ s mm, (s, mm) ∈ sendsOf (handleOffer socket sid data rooms).2 ↔
          (mm = Msg.offer data.sender data.offer ∧ ∃ room u c,
            mapGet rooms data.roomId = some room ∧ (u, c) ∈ room ∧
            c.socketId ≠ sid ∧ c.socket = s))
    ∧ ((handleAnswer socket sid data rooms).1 = rooms
      ∧ ∀ s mm, (s, mm) ∈ sendsOf (handleAnswer socket sid data rooms).2 ↔
          (mm = Msg.answer data.sender data.answer ∧ ∃ room u c,
            mapGet rooms data.roomId = some room ∧ (u, c) ∈ room ∧
            c.socketId ≠ sid ∧ c.socket = s))
    ∧ ((handleIceCandidate socket sid data rooms).1 = rooms
      ∧ ∀ s mm, (s, mm) ∈ sendsOf (handleIceCandidate socket sid data rooms).2 ↔
          (mm = Msg.iceCandidate data.sender data.candidate ∧ ∃ room u c,
            mapGet rooms data.roomId = some room ∧ (u, c) ∈ room ∧
            c.socketId ≠ sid ∧ c.socket = s)) := by
  refine ⟨⟨rfl, fun s mm => ?_⟩, ⟨rfl, fun s mm => ?_⟩, rfl, fun s mm => ?_⟩
  · rw [show (handleOffer socket sid data rooms).2
        = [Ev.bcast data.roomId (Msg.offer data.sender data.offer) sid
            (broadcastToRoom rooms data.roomId
              (Msg.offer data.sender data.offer) sid)] from rfl, sendsOf_bcast]
    exact mem_broadcastToRoom rooms data.roomId _ sid s mm
  · rw [show (handleAnswer socket sid data rooms).2
        = [Ev.bcast data.roomId (Msg.answer data.sender data.answer) sid
            (broadcastToRoom rooms data.roomId
              (Msg.answer data.sender data.answer) sid)] from rfl, sendsOf_bcast]
    exact mem_broadcastToRoom rooms data.roomId _ sid s mm
  · rw [show (handleIceCandidate socket sid data rooms).2
        = [Ev.bcast data.roomId (Msg.iceCandidate data.sender data.candidate) sid
            (broadcastToRoom rooms data.roomId
              (Msg.iceCandidate data.sender data.candidate) sid)] from rfl,
      sendsOf_bcast]
    exact mem_broadcastToRoom rooms data.roomId _ sid s mm

/-- C8 (counterexample): the src/worker.js dispatch has no `heartbeat` case,
so a heartbeat falls through to the unknown-type default — logged and
dropped, with no `heartbeat-ack` reply, refuting the claim for that router
variant at a concrete input. -/
theorem worker_dispatch_drops_heartbeat :
    handleMessageWorker 3 "s3" (some { type := some "heartbeat" }) [] = ([], []) := by
  decide

/-- C8 (amended): in the part_000 variant — the dispatch that has a
heartbeat case — an inbound `heartbeat` makes the router reply
`{type:"heartbeat-ack"}` directly and only to the sending socket, with no
broadcast invocation and no registry mutation; the worker.js variant drops
heartbeats as an unknown type. -/
theorem heartbeat_ack_direct_only (socket : Nat) (sid : String) (m : JMsg)
    (rooms : Registry) (h : m.type = some "heartbeat") :
    handleMessage socket sid (some m) rooms
      = (rooms, [Ev.direct socket Msg.heartbeatAck]) := by
  show dispatch socket sid m rooms = _
  unfold dispatch
  rw [h]
  simp

/-- Witness for C8's amended theorem at a concrete heartbeat message. -/
theorem heartbeat_ack_direct_only_witness :
    handleMessage 3 "s3" (some { type := some "heartbeat" })
        [(some "A", [(some "u1", ⟨1, "s1"⟩)])]
      = ([(some "A", [(some "u1", ⟨1, "s1"⟩)])],
         [Ev.direct 3 Msg.heartbeatAck]) :=
  heartbeat_ack_direct_only 3 "s3" { type := some "heartbeat" }
    [(some "A", [(some "u1", ⟨1, "s1"⟩)])] rfl

/-- C2 (code bug): with room "A" = {u1 ↦ socket 1, u2 ↦ socket 2}, a first
leave-room(A, u1) from u1's connection removes the entry, yet an
immediately repeated leave-room(A, u1) — under which no removal occurs —
still sends a second `peer-left` to u2's socket: `handleLeaveRoom`
broadcasts whenever the room exists, never checking whether the delete
removed anything, so the second call is not the no-broadcast no-op the
spec requires. -/
theorem leave_second_call_broadcasts_again :
    (findClient (handleLeaveRoom 1 "s1"
        { type := some "leave-room", roomId := some "A", userId := some "u1" }
        [(some "A", [(some "u1", ⟨1, "s1"⟩), (some "u2", ⟨2, "s2"⟩)])]).1
      (some "A") (some "u1") = none)
    ∧ sendsOf (handleLeaveRoom 1 "s1"
        { type := some "leave-room", roomId := some "A", userId := some "u1" }
        (handleLeaveRoom 1 "s1"
          { type := some "leave-room", roomId := some "A", userId := some "u1" }
          [(some "A", [(some "u1", ⟨1, "s1"⟩), (some "u2", ⟨2, "s2"⟩)])]).1).2
      = [(2, Msg.peerLeft (some "A") (some "u1"))] := by
  decide

/-- C6 (counterexample): a parseable `join-room` missing its required
`userId` field is not dropped: handled from the empty registry it creates
room "A" with an entry under the `undefined` user key and performs a
`peer-joined` broadcast invocation — the registry is mutated, refuting
"no Registry mutation and no broadcast" for messages missing a required
field of their declared type. -/
theorem join_missing_userId_not_dropped :
    ((handleMessage 7 "sX"
        (some { type := some "join-room", roomId := some "A" }) []).1
      = [(some "A", [(none, ⟨7, "sX"⟩)])])
    ∧ ((handleMessage 7 "sX"
        (some { type := some "join-room", roomId := some "A" }) []).1 ≠ [])
    ∧ ((handleMessage 7 "sX"
        (some { type := some "join-room", roomId := some "A" }) []).2
      = [Ev.bcast (some "A") (Msg.peerJoined (some "A") none) "sX" []]) := by
  decide

/-- C6 (amended): only raw messages that fail JSON parsing are caught,
logged and dropped — both router variants then leave the registry
untouched and perform no send, no broadcast and no state change of any
kind (neither message path contains a close call, so the connection stays
open); a parseable envelope missing required fields for its type is
instead dispatched with `undefined` for the missing fields. -/
theorem unparseable_message_dropped (socket : Nat) (sid : String)
    (rooms : Registry) :
    handleMessage socket sid none rooms = (rooms, [])
    ∧ handleMessageWorker socket sid none rooms = (rooms, []) :=
  ⟨rfl, rfl⟩

/-- C9 (counterexample): connectionIds come from `Math.random()` with no
uniqueness enforcement: two distinct accepted connections whose draws
render identically receive identical socketIds, refuting guaranteed
process-uniqueness at a concrete input. -/
theorem socketId_not_unique :
    socketIdOf (fun k => "0.abcdefghi") 0 = socketIdOf (fun k => "0.abcdefghi") 1
    ∧ (0 : Nat) ≠ 1 :=
  ⟨rfl, by decide⟩

/-- C9 (amended): each connection's socketId is computed exactly once, at
accept time, as "socket_" plus nine characters of its own draw's base-36
rendering; the socketIds of two accepted connections are guaranteed
distinct only when those nine-character slices differ — uniqueness is
probabilistic, not enforced, and collisions are possible. -/
theorem socketId_distinct_draws_distinct (rand : Nat → String) (m n : Nat)
    (h : ((rand m).drop 2).take 9 ≠ ((rand n).drop 2).take 9) :
    socketIdOf rand m ≠ socketIdOf rand n := by
  intro he
  apply h
  unfold socketIdOf genSocketId at he
  have hd := congrArg String.data he
  rw [String.data_append, String.data_append] at hd
  exact String.ext (List.append_cancel_left hd)

/-- Witness for C9's amended theorem: two draws with different slices give
different socketIds. -/
theorem socketId_distinct_draws_distinct_witness :
    socketIdOf (fun k => if k = 0 then "0.aaaaaaaaa" else "0.bbbbbbbbb") 0
      ≠ socketIdOf (fun k => if k = 0 then "0.aaaaaaaaa" else "0.bbbbbbbbb") 1 :=
  socketId_distinct_draws_distinct
    (fun k => if k = 0 then "0.aaaaaaaaa" else "0.bbbbbbbbb") 0 1 (by decide)

/-- C10: `handleLeaveRoom` never checks that the requesting connection owns
the membership it names: when (r, u) is registered to a client whose
socketId differs from the requester's, a leave-room for (r, u) arriving on
the requester's connection still removes that entry and still performs the
`peer-left` departure broadcast (excluding only the requester's socketId) —
any connection can evict any user from any room. -/
theorem leave_room_no_ownership_check (rooms : Registry) (sockC : Nat)
    (sidC : String) (r u : JStr) (room : Room) (c : Client) (hwf : WF rooms)
    (hroom : mapGet rooms r = some room) (hc : mapGet room u = some c)
    (hne : c.socketId ≠ sidC) :
    findClient (handleLeaveRoom sockC sidC
        { type := some "leave-room", roomId := r, userId := u } rooms).1 r u = none
    ∧ ((handleLeaveRoom sockC sidC
        { type := some "leave-room", roomId := r, userId := u } rooms).2).map evDesc
      = [some (r, Msg.peerLeft r u, sidC)] := by
  constructor
  · rw [findClient_handleLeaveRoom sockC sidC
      { type := some "leave-room", roomId := r, userId := u } rooms room hwf hroom
      r u, if_pos rfl]
    exact mapGet_mapDelete_self _ _ (hwf.2 _ (mapGet_eq_some_mem _ _ hroom)).1
  · exact handleLeaveRoom_events sockC sidC _ rooms
      ((mapHas_iff _ _).mpr ⟨room, hroom⟩)

/-- Witness for C10: connection "s2" evicts u1 (registered to socket 1,
socketId "s1") from room "A"; the entry is removed and the peer-left
broadcast is performed. -/
theorem leave_room_no_ownership_check_witness :
    findClient (handleLeaveRoom 2 "s2"
        { type := some "leave-room", roomId := some "A", userId := some "u1" }
        [(some "A", [(some "u1", ⟨1, "s1"⟩), (some "u3", ⟨3, "s3"⟩)])]).1
      (some "A") (some "u1") = none
    ∧ ((handleLeaveRoom 2 "s2"
        { type := some "leave-room", roomId := some "A", userId := some "u1" }
        [(some "A", [(some "u1", ⟨1, "s1"⟩), (some "u3", ⟨3, "s3"⟩)])]).2).map evDesc
      = [some (some "A", Msg.peerLeft (some "A") (some "u1"), "s2")] :=
  leave_room_no_ownership_check
    [(some "A", [(some "u1", ⟨1, "s1"⟩), (some "u3", ⟨3, "s3"⟩)])] 2 "s2"
    (some "A") (some "u1") [(some "u1", ⟨1, "s1"⟩), (some "u3", ⟨3, "s3"⟩)]
    ⟨1, "s1"⟩ (by decide) (by decide) (by decide) (by decide)

end ZapCall
